import Mathlib

/-!
Verification of the semi-reliable UDP transfer programs: a shallow embedding
of the receiver loop in `server2.py` and of the two pipelined sender loops in
`client_pipelined2.py` (fixed window) and `client_pipelined3.py` (adaptive
window), together with proofs about the claims of the specification.

Bytes are modelled as natural numbers, byte strings as `List ℕ`, Python
dictionaries as association lists with insertion-order-preserving update,
and Python's unbounded integers as `ℕ` / `ℤ`.
-/

namespace Proto

/-- Payloads and raw datagrams: byte strings modelled as lists of bytes. -/
abbrev Bytes := List ℕ

/-! ### Python dict operations on association lists

The programs use dictionaries keyed by sequence numbers
(`out_of_order_packets` in the server, `outstanding` in the clients).
Entry order is never observed by the code (only membership, lookup,
keyed deletion and length), so an association list with unique keys is a
faithful model. -/

/-- `l[k]` lookup for a dict modelled as an association list. -/
def lookupK (k : ℕ) : List (ℕ × α) → Option α
  | [] => none
  | (k', v) :: t => if k' = k then some v else lookupK k t

/-- `del l[k]` / dict-comprehension removal of the key `k`. -/
def eraseK (k : ℕ) (l : List (ℕ × α)) : List (ℕ × α) :=
  l.filter (fun kv => kv.1 ≠ k)

/-- `l[k] = v`: replace the entry in place if the key exists, else append. -/
def upsert (k : ℕ) (v : α) (l : List (ℕ × α)) : List (ℕ × α) :=
  if (lookupK k l).isSome then
    l.map (fun kv => if kv.1 = k then (k, v) else kv)
  else
    l ++ [(k, v)]

/-! ### Wire codec

Both programs use `struct.pack(">II", ...)` / `struct.unpack(">II", ...)`:
two big-endian 32-bit unsigned integers.  `struct.unpack` raises
`struct.error` exactly when the supplied byte string is not 8 bytes long. -/

/-- Big-endian value of a byte string (`int.from_bytes(l, "big")`). -/
def beVal (l : Bytes) : ℕ :=
  l.foldl (fun acc b => acc * 256 + b) 0

/-- The 4 big-endian bytes of `n % 2^32` (`struct.pack(">I", n)`). -/
def be32 (n : ℕ) : Bytes :=
  [n / 2 ^ 24 % 256, n / 2 ^ 16 % 256, n / 2 ^ 8 % 256, n % 256]

/-- `struct.unpack(">II", d)`: `none` models the raised `struct.error`
when `d` is not exactly 8 bytes. -/
def unpackII (d : Bytes) : Option (ℕ × ℕ) :=
  if d.length = 8 then some (beVal (d.take 4), beVal (d.drop 4)) else none

/-- A data packet as built by the clients:
`struct.pack(">II", magic, seqno) + body` with magic `0xBAADCAFE`. -/
def mkPkt (seqno : ℕ) (body : Bytes) : Bytes :=
  be32 0xBAADCAFE ++ be32 seqno ++ body

/-- An acknowledgment packet as built by the server:
`struct.pack(">II", 0xAAAAAAAA, ackno)`. -/
def ackPkt (ackno : ℕ) : Bytes :=
  be32 0xAAAAAAAA ++ be32 ackno

/-- Uncaught Python exceptions that terminate a process in these programs. -/
inductive PyErr where
  /-- `struct.error` from an unpack of a wrong-sized byte string. -/
  | structError
  /-- `KeyError` from indexing a dict with an absent key. -/
  | keyError
deriving DecidableEq, Repr

/-! ### Receiver (`server2.py`, `main`)

Mutable state of the receive loop: `last_cum_ack` (initially `-1`),
`out_of_order_packets`, plus observation traces: the arguments of every
`datasink.deliver` call and the value of every `send_cum_ack` call. -/

/-- State of the server's receive loop, with delivery/ack traces. -/
structure SCfg where
  /-- `last_cum_ack`, the delivery frontier, `-1` before any delivery. -/
  last : ℤ
  /-- `out_of_order_packets`: seqno ↦ payload. -/
  buf : List (ℕ × Bytes)
  /-- Trace of `datasink.deliver(seqno, payload)` calls, in call order. -/
  delivered : List (ℕ × Bytes)
  /-- Trace of cumulative-ack values passed to `send_cum_ack`. -/
  acks : List ℤ
deriving DecidableEq, Repr

/-- The server state at program start. -/
def sInit : SCfg := ⟨-1, [], [], []⟩

/-- The drain loop `while last_cum_ack + 1 in out_of_order_packets: ...`.

Each iteration removes one buffered packet, so running it with
`fuel = buf.length` is exhaustive: when the fuel is spent the buffer is
empty and the loop condition is false anyway (see `drain_spec`).
Returns the new `last_cum_ack` (a `ℕ`: the loop only runs after an
in-order delivery, so the frontier is a received seqno), the remaining
buffer and the extended delivery trace. -/
def drain : ℕ → ℕ → List (ℕ × Bytes) → List (ℕ × Bytes) →
    ℕ × List (ℕ × Bytes) × List (ℕ × Bytes)
  | 0, last, buf, dels => (last, buf, dels)
  | fuel + 1, last, buf, dels =>
    match lookupK (last + 1) buf with
    | some p => drain fuel (last + 1) (eraseK (last + 1) buf)
        (dels ++ [(last + 1, p)])
    | none => (last, buf, dels)

/-- One iteration of the server loop body on a decoded datagram
(lines 74–88 of `server2.py`): classify `seqno` against
`last_cum_ack + 1`, deliver / buffer / ignore, and send a cumulative
acknowledgment in the in-order branch. -/
def serverStep (c : SCfg) (seqno : ℕ) (payload : Bytes) : SCfg :=
  if (seqno : ℤ) = c.last + 1 then
    let dels := c.delivered ++ [(seqno, payload)]
    let r := drain c.buf.length seqno c.buf dels
    { last := (r.1 : ℤ), buf := r.2.1, delivered := r.2.2,
      acks := c.acks ++ [(r.1 : ℤ)] }
  else if (seqno : ℤ) > c.last + 1 then
    { c with buf := upsert seqno payload c.buf }
  else
    c

/-- The server loop body on a raw datagram, including the header split
and `struct.unpack(">II", hdr)` (lines 63–67): a datagram shorter than
8 bytes makes the unpack raise an uncaught `struct.error`. -/
def serverStepRaw (c : SCfg) (packet : Bytes) : Except PyErr SCfg :=
  match unpackII (packet.take 8) with
  | none => .error .structError
  | some (_, seqno) => .ok (serverStep c seqno (packet.drop 8))

/-- The server loop over a list of decoded datagrams. -/
def serverRun : SCfg → List (ℕ × Bytes) → SCfg
  | c, [] => c
  | c, (s, p) :: rest => serverRun (serverStep c s p) rest

/-- The server loop over raw datagrams; an uncaught exception aborts it. -/
def serverRunRaw : SCfg → List Bytes → Except PyErr SCfg
  | c, [] => .ok c
  | c, p :: rest =>
    match serverStepRaw c p with
    | .ok c' => serverRunRaw c' rest
    | .error e => .error e

/-! ### Receiver invariants -/

/-- Receiver loop invariant: the delivery trace is exactly
`0, 1, …, last_cum_ack` in order; every buffered seqno is strictly
beyond the next expected one; the frontier never drops below `-1`. -/
def SInv (c : SCfg) : Prop :=
  c.delivered.map Prod.fst = List.range (c.last + 1).toNat ∧
  (∀ k, (lookupK k c.buf).isSome → c.last + 1 < (k : ℤ)) ∧
  -1 ≤ c.last

/-! ### Senders (`client_pipelined2.py` and `client_pipelined3.py`)

Both clients run the same four-state loop; only the window policy and the
retransmission policy differ.  The data source is a function
`src : seqno ↦ Option body` (`datasource.wait_for_data(seqno)` is
deterministic per seqno, `none` meaning end of data).  Everything the
blocking `recvfrom` in the ACK-wait state can yield — a raw datagram, a
`socket.timeout`, or a `socket.error` — is consumed from a list of
pending events embedded in the configuration; the other states consume
no event.  An iteration that cannot proceed (loop guard false, or no
event pending in the ACK-wait state) leaves the configuration unchanged. -/

/-- The protocol states of the sender loop (`state = 0, 1, 2, 3`; the
code assigns no other value, so the loop's dead `else` branch is not
representable). -/
inductive SState where
  /-- state 0: wait for data to be available to send. -/
  | s0
  /-- state 1: send one data packet. -/
  | s1
  /-- state 2: wait for the desired ACK. -/
  | s2
  /-- state 3: resend outstanding packets. -/
  | s3
deriving DecidableEq, Repr

/-- What a blocking `recvfrom` with a timeout can produce. -/
inductive Evt where
  /-- An incoming datagram with the given bytes. -/
  | dgram (d : Bytes)
  /-- `socket.timeout`. -/
  | timeout
  /-- `socket.error`. -/
  | sockErr
deriving DecidableEq, Repr

/-- Mutable state of the fixed-window client `client_pipelined2.py`,
plus the pending receive events and the trace `acted` of every `ackno`
taken by the progress branch (`ackno >= desired_ackno`). -/
structure Cfg2 where
  /-- `seqno`: sequence number for the next data packet to be sent. -/
  seqno : ℕ
  /-- `desired_ackno`: ACK number that we must next wait for. -/
  desired : ℕ
  /-- `have_more_data`. -/
  hmd : Bool
  /-- `body`: data for the next packet, `none` before the first pull. -/
  body : Option Bytes
  /-- `outstanding`: seqno ↦ raw packet bytes. -/
  outstanding : List (ℕ × Bytes)
  /-- `state`. -/
  state : SState
  /-- Receive events not yet consumed by the ACK-wait state. -/
  evs : List Evt
  /-- Trace of the `ackno` values acted upon by the progress branch. -/
  acted : List ℕ
deriving DecidableEq, Repr

/-- The fixed-window client's state at the start of the main loop. -/
def init2 (evs : List Evt) : Cfg2 :=
  ⟨0, 0, true, none, [], .s0, evs, []⟩

/-- The loop guard `while have_more_data or len(outstanding) > 0`. -/
def guard2 (c : Cfg2) : Prop :=
  c.hmd = true ∨ c.outstanding ≠ []

instance (c : Cfg2) : Decidable (guard2 c) := by
  unfold guard2; infer_instance

/-- `for i in range(desired_ackno, ackno + 1): if i in outstanding:
del outstanding[i]` — deleting an absent key is a no-op, so the guard
is subsumed by `eraseK`. -/
def delRange (lo n : ℕ) (l : List (ℕ × Bytes)) : List (ℕ × Bytes) :=
  (List.range' lo n).foldl (fun acc i => eraseK i acc) l

/-- One iteration of the fixed-window client's main loop
(lines 75–160 of `client_pipelined2.py`), for window size `n` and data
source `src`.  `Except.error` is an uncaught Python exception
terminating the program. -/
def iter2 (src : ℕ → Option Bytes) (n : ℕ) (c : Cfg2) : Except PyErr Cfg2 :=
  if ¬ guard2 c then .ok c
  else match c.state with
  | .s0 =>
    match src c.seqno with
    | none => .ok { c with hmd := false, state := .s2 }
    | some b => .ok { c with body := some b, state := .s1 }
  | .s1 =>
    let pkt := mkPkt c.seqno (c.body.getD [])
    let out' := upsert c.seqno pkt c.outstanding
    .ok { c with
      outstanding := out'
      seqno := c.seqno + 1
      state := if out'.length ≥ n then .s2 else .s0 }
  | .s2 =>
    match c.evs with
    | [] => .ok c
    | .timeout :: rest => .ok { c with evs := rest, state := .s3 }
    | .sockErr :: rest => .ok { c with evs := rest, state := .s3 }
    | .dgram d :: rest =>
      match unpackII d with
      | none => .error .structError
      | some (_, ackno) =>
        if ackno ≥ c.desired then
          let out' := delRange c.desired (ackno + 1 - c.desired) c.outstanding
          .ok { c with
            evs := rest
            outstanding := out'
            desired := ackno + 1
            acted := c.acted ++ [ackno]
            state := if out'.length < n ∧ c.hmd then .s0 else .s2 }
        else
          .ok { c with evs := rest, state := .s2 }
  | .s3 =>
    -- `for i in range(desired_ackno, seqno): pkt = outstanding[i]; ...`:
    -- a missing key raises KeyError.
    if (List.range' c.desired (c.seqno - c.desired)).all
        (fun i => (lookupK i c.outstanding).isSome) then
      .ok { c with state := .s2 }
    else
      .error .keyError

/-- Run `fuel` iterations of the fixed-window client loop. -/
def run2 (src : ℕ → Option Bytes) (n : ℕ) : ℕ → Cfg2 → Except PyErr Cfg2
  | 0, c => .ok c
  | fuel + 1, c =>
    match iter2 src n c with
    | .ok c' => run2 src n fuel c'
    | .error e => .error e

/-- Configurations of the fixed-window client reachable from the start
of the main loop, for an arbitrary list of pending receive events. -/
inductive Reach2 (src : ℕ → Option Bytes) (n : ℕ) : Cfg2 → Prop where
  /-- The loop starts at `init2`. -/
  | base (evs : List Evt) : Reach2 src n (init2 evs)
  /-- One successful loop iteration. -/
  | step {c c' : Cfg2} : Reach2 src n c → iter2 src n c = .ok c' →
      Reach2 src n c'

/-- The incoming acknowledgment about to be processed (if any) only
covers already-sent packets: `ackno < seqno`.  This is true of every
acknowledgment the receiver can produce, since the receiver only acks
seqnos it received. -/
def goodHd2 (c : Cfg2) : Prop :=
  ∀ d rest m a, c.state = .s2 → c.evs = .dgram d :: rest →
    unpackII d = some (m, a) → a < c.seqno

/-- Reachability when every processed acknowledgment covers only
already-sent packets. -/
inductive ReachG2 (src : ℕ → Option Bytes) (n : ℕ) : Cfg2 → Prop where
  /-- The loop starts at `init2`. -/
  | base (evs : List Evt) : ReachG2 src n (init2 evs)
  /-- One successful loop iteration whose consumed acknowledgment, if
  any, is for an already-sent packet. -/
  | step {c c' : Cfg2} : ReachG2 src n c → goodHd2 c →
      iter2 src n c = .ok c' → ReachG2 src n c'

/-- Mutable state of the adaptive-window client `client_pipelined3.py`:
like `Cfg2` plus `highest_cum_ack` (initially `-1`) and the window size
`swnd`; `desired_ackno` is kept as the Python int it is there
(`highest_cum_ack + 1`, so modelled as `ℤ`). -/
structure Cfg3 where
  /-- `seqno`. -/
  seqno : ℕ
  /-- `desired_ackno`. -/
  desired : ℤ
  /-- `highest_cum_ack`, `-1` initially. -/
  highest : ℤ
  /-- `swnd`: the size of the send window. -/
  swnd : ℕ
  /-- `have_more_data`. -/
  hmd : Bool
  /-- `body`. -/
  body : Option Bytes
  /-- `outstanding`: seqno ↦ raw packet bytes. -/
  outstanding : List (ℕ × Bytes)
  /-- `state`. -/
  state : SState
  /-- Receive events not yet consumed by the ACK-wait state. -/
  evs : List Evt
  /-- Trace of the `ackno` values acted upon by the progress branch. -/
  acted : List ℕ
deriving DecidableEq, Repr

/-- The adaptive-window client's state at the start of the main loop. -/
def init3 (evs : List Evt) : Cfg3 :=
  ⟨0, 0, -1, 1, true, none, [], .s0, evs, []⟩

/-- The loop guard `while have_more_data or len(outstanding) > 0`. -/
def guard3 (c : Cfg3) : Prop :=
  c.hmd = true ∨ c.outstanding ≠ []

instance (c : Cfg3) : Decidable (guard3 c) := by
  unfold guard3; infer_instance

/-- `if desired_ackno in outstanding: ...` with an `ℤ`-valued index
against `ℕ` keys. -/
def zlookup (z : ℤ) : List (ℕ × Bytes) → Option Bytes
  | [] => none
  | (k, v) :: t => if (k : ℤ) = z then some v else zlookup z t

/-- One iteration of the adaptive-window client's main loop
(lines 75–148 of `client_pipelined3.py`). -/
def iter3 (src : ℕ → Option Bytes) (c : Cfg3) : Except PyErr Cfg3 :=
  if ¬ guard3 c then .ok c
  else match c.state with
  | .s0 =>
    match src c.seqno with
    | none => .ok { c with hmd := false, state := .s2 }
    | some b => .ok { c with body := some b, state := .s1 }
  | .s1 =>
    let pkt := mkPkt c.seqno (c.body.getD [])
    let out' := upsert c.seqno pkt c.outstanding
    .ok { c with
      outstanding := out'
      seqno := c.seqno + 1
      state := if out'.length ≥ c.swnd then .s2 else .s0 }
  | .s2 =>
    match c.evs with
    | [] => .ok c
    | .timeout :: rest => .ok { c with evs := rest, state := .s3 }
    | .sockErr :: rest => .ok { c with evs := rest, state := .s3 }
    | .dgram d :: rest =>
      match unpackII d with
      | none => .error .structError
      | some (_, ackno) =>
        let c1 :=
          if (ackno : ℤ) > c.highest then
            { c with
              highest := (ackno : ℤ)
              desired := (ackno : ℤ) + 1
              outstanding :=
                c.outstanding.filter (fun kv => (ackno : ℤ) < (kv.1 : ℤ))
              swnd := c.swnd + 1
              acted := c.acted ++ [ackno] }
          else c
        .ok { c1 with
          evs := rest
          state := if c1.outstanding.length < c1.swnd ∧ c1.hmd then .s0
            else .s2 }
  | .s3 =>
    match zlookup c.desired c.outstanding with
    | some _ => .ok { c with swnd := 1, state := .s2 }
    | none => .ok { c with state := .s2 }

/-- Run `fuel` iterations of the adaptive-window client loop. -/
def run3 (src : ℕ → Option Bytes) : ℕ → Cfg3 → Except PyErr Cfg3
  | 0, c => .ok c
  | fuel + 1, c =>
    match iter3 src c with
    | .ok c' => run3 src fuel c'
    | .error e => .error e

/-- Configurations of the adaptive-window client reachable from the
start of the main loop. -/
inductive Reach3 (src : ℕ → Option Bytes) : Cfg3 → Prop where
  /-- The loop starts at `init3`. -/
  | base (evs : List Evt) : Reach3 src (init3 evs)
  /-- One successful loop iteration. -/
  | step {c c' : Cfg3} : Reach3 src c → iter3 src c = .ok c' →
      Reach3 src c'

/-- The incoming acknowledgment about to be processed (if any) only
covers already-sent packets. -/
def goodHd3 (c : Cfg3) : Prop :=
  ∀ d rest m a, c.state = .s2 → c.evs = .dgram d :: rest →
    unpackII d = some (m, a) → a < c.seqno

/-- Reachability of the adaptive-window client when every processed
acknowledgment covers only already-sent packets. -/
inductive ReachG3 (src : ℕ → Option Bytes) : Cfg3 → Prop where
  /-- The loop starts at `init3`. -/
  | base (evs : List Evt) : ReachG3 src (init3 evs)
  /-- One successful loop iteration whose consumed acknowledgment, if
  any, is for an already-sent packet. -/
  | step {c c' : Cfg3} : ReachG3 src c → goodHd3 c →
      iter3 src c = .ok c' → ReachG3 src c'

/-! ### Invariants of the sender loops -/

/-- Acted-trace invariant of the fixed-window client: every
acknowledgment acted upon so far lies below the current
`desired_ackno`, and the trace is strictly increasing. -/
def AInv2 (c : Cfg2) : Prop :=
  (∀ a ∈ c.acted, a < c.desired) ∧ List.Pairwise (· < ·) c.acted

/-- Window invariant of the fixed-window client: at most `n` packets
are outstanding, with strict slack whenever the loop is about to pull
or send new data. -/
def WInv2 (n : ℕ) (c : Cfg2) : Prop :=
  c.outstanding.length ≤ n ∧
  ((c.state = .s0 ∨ c.state = .s1) → c.outstanding.length < n)

/-- Outstanding-set invariant of the fixed-window client under
well-behaved acknowledgments: the keys of `outstanding` are exactly the
half-open range `[desired_ackno, seqno)`. -/
def GInv2 (c : Cfg2) : Prop :=
  c.desired ≤ c.seqno ∧
  (∀ k, (lookupK k c.outstanding).isSome ↔ c.desired ≤ k ∧ k < c.seqno)

/-- Basic invariant of the adaptive-window client: `desired_ackno`
tracks `highest_cum_ack + 1`; the window is positive; in the ACK-wait
and retransmit states the window is full or the data source is
exhausted; the acted trace is bounded by `highest_cum_ack` and strictly
increasing. -/
def Inv3 (c : Cfg3) : Prop :=
  c.desired = c.highest + 1 ∧
  -1 ≤ c.highest ∧
  1 ≤ c.swnd ∧
  ((c.state = .s2 ∨ c.state = .s3) →
    (c.swnd ≤ c.outstanding.length ∨ c.hmd = false)) ∧
  (∀ a ∈ c.acted, (a : ℤ) ≤ c.highest) ∧
  List.Pairwise (· < ·) c.acted

/-- Outstanding-set invariant of the adaptive-window client under
well-behaved acknowledgments: keys of `outstanding` are exactly
`[desired_ackno, seqno)`. -/
def GInv3 (c : Cfg3) : Prop :=
  c.desired ≤ (c.seqno : ℤ) ∧
  (∀ k, (lookupK k c.outstanding).isSome ↔
    c.desired ≤ (k : ℤ) ∧ k < c.seqno)

/-! ### Lemmas about the dict operations -/

theorem eraseK_cons_self (k : ℕ) (v : α) (t : List (ℕ × α)) :
    eraseK k ((k, v) :: t) = eraseK k t := by
  simp [eraseK]

theorem eraseK_cons_ne {k₀ k : ℕ} (v : α) (t : List (ℕ × α))
    (h : ¬ k₀ = k) : eraseK k ((k₀, v) :: t) = (k₀, v) :: eraseK k t := by
  simp [eraseK, h]

theorem lookupK_eraseK (k k' : ℕ) (l : List (ℕ × α)) :
    lookupK k (eraseK k' l) = if k = k' then none else lookupK k l := by
  induction l with
  | nil => simp [eraseK, lookupK]
  | cons hd t ih =>
    cases hd with
    | mk k₀ v₀ =>
      by_cases h0 : k₀ = k'
      · subst h0
        rw [eraseK_cons_self, ih]
        by_cases hkk : k = k₀
        · simp [hkk]
        · have hk0 : ¬ k₀ = k := fun h => hkk h.symm
          simp [lookupK, hk0, hkk]
      · rw [eraseK_cons_ne v₀ t h0]
        by_cases h0k : k₀ = k
        · subst h0k
          have hkk : ¬ k₀ = k' := h0
          simp [lookupK, hkk]
        · simp only [lookupK, if_neg h0k]
          rw [ih]

theorem lookupK_replace (k k' : ℕ) (v : α) (l : List (ℕ × α)) :
    lookupK k (l.map (fun kv => if kv.1 = k' then (k', v) else kv)) =
      if k = k' then Option.map (fun _ => v) (lookupK k' l)
      else lookupK k l := by
  induction l with
  | nil => by_cases hkk : k = k' <;> simp [lookupK, hkk]
  | cons hd t ih =>
    cases hd with
    | mk k₀ v₀ =>
      simp only [List.map_cons]
      by_cases h0 : k₀ = k'
      · subst h0
        simp only [if_pos rfl]
        by_cases hkk : k = k₀
        · subst hkk; simp [lookupK]
        · have hk0 : ¬ k₀ = k := fun h => hkk h.symm
          simp only [lookupK, if_pos rfl, if_neg hk0, ih, if_neg hkk]
      · have hmap : (if k₀ = k' then ((k', v) : ℕ × α) else (k₀, v₀))
            = (k₀, v₀) := if_neg h0
        rw [hmap]
        by_cases h0k : k₀ = k
        · subst h0k
          have hkk : ¬ k₀ = k' := h0
          simp [lookupK, hkk]
        · simp only [lookupK, if_neg h0k, ih]
          by_cases hkk : k = k'
          · simp [lookupK, hkk, h0]
          · simp [hkk]

theorem lookupK_upsert (k k' : ℕ) (v : α) (l : List (ℕ × α)) :
    lookupK k (upsert k' v l) = if k = k' then some v else lookupK k l := by
  unfold upsert
  by_cases hs : (lookupK k' l).isSome
  · rw [if_pos hs, lookupK_replace]
    by_cases hkk : k = k'
    · rcases Option.isSome_iff_exists.mp hs with ⟨w, hw⟩
      simp [hkk, hw]
    · simp [hkk]
  · rw [if_neg hs]
    induction l with
    | nil =>
      by_cases hkk : k = k'
      · simp [lookupK, hkk]
      · have hkk' : ¬ k' = k := fun h => hkk h.symm
        simp [lookupK, hkk, hkk']
    | cons hd t ih =>
      cases hd with
      | mk k₀ v₀ =>
        by_cases h0 : k₀ = k'
        · subst h0; simp [lookupK] at hs
        · have hs' : ¬ (lookupK k' t).isSome := by
            simpa [lookupK, h0] using hs
          by_cases h0k : k₀ = k
          · subst h0k
            have hkk : ¬ k₀ = k' := h0
            simp [lookupK, List.cons_append, hkk]
          · simp only [List.cons_append, lookupK, if_neg h0k]
            exact ih hs'

theorem length_eraseK_lt {k : ℕ} {l : List (ℕ × α)} {v : α}
    (h : lookupK k l = some v) : (eraseK k l).length < l.length := by
  induction l with
  | nil => simp [lookupK] at h
  | cons hd t ih =>
    cases hd with
    | mk k₀ v₀ =>
      by_cases h0 : k₀ = k
      · subst h0
        simp only [eraseK, List.filter]
        have : (t.filter (fun kv => kv.1 ≠ k₀)).length ≤ t.length :=
          List.length_filter_le _ t
        simp only [ne_eq, decide_not]
        simpa using Nat.lt_succ_of_le this
      · simp only [lookupK, h0, if_neg, not_false_iff] at h
        have := ih h
        simp only [eraseK, List.filter, ne_eq, h0, decide_not] at *
        simpa [h0] using Nat.succ_lt_succ this

theorem length_eraseK_le (k : ℕ) (l : List (ℕ × α)) :
    (eraseK k l).length ≤ l.length :=
  List.length_filter_le _ l

theorem length_upsert (k : ℕ) (v : α) (l : List (ℕ × α)) :
    (upsert k v l).length ≤ l.length + 1 := by
  unfold upsert
  by_cases hs : (lookupK k l).isSome <;> simp [hs]

theorem lookupK_filter_key (k : ℕ) (p : ℕ → Bool) (l : List (ℕ × α)) :
    lookupK k (l.filter (fun kv => p kv.1)) =
      if p k then lookupK k l else none := by
  induction l with
  | nil => by_cases hp : p k <;> simp [lookupK, hp]
  | cons hd t ih =>
    cases hd with
    | mk k₀ v₀ =>
      by_cases hp0 : p k₀ <;> by_cases h0 : k₀ = k <;>
        simp_all [lookupK, List.filter]

/-! ### Properties of the drain loop -/

/-- Full characterization of the drain loop, given enough fuel
(the loop pops one buffered packet per iteration, so `buf.length` fuel
is always enough): the frontier only advances, the delivery trace is
extended by exactly the consecutive seqnos `last+1, …, last'`, the
remaining buffer is the original minus the keys in `[last+1, last']`,
and on exit the next expected seqno is not buffered. -/
theorem drain_spec (fuel : ℕ) :
    ∀ (last : ℕ) (buf dels : List (ℕ × Bytes)),
    buf.length ≤ fuel →
    last ≤ (drain fuel last buf dels).1 ∧
    (drain fuel last buf dels).2.2.map Prod.fst =
      dels.map Prod.fst ++
        List.range' (last + 1) ((drain fuel last buf dels).1 - last) ∧
    (∀ k, lookupK k (drain fuel last buf dels).2.1 =
      if last + 1 ≤ k ∧ k ≤ (drain fuel last buf dels).1 then none
      else lookupK k buf) ∧
    lookupK ((drain fuel last buf dels).1 + 1)
      (drain fuel last buf dels).2.1 = none := by
  induction fuel with
  | zero =>
    intro last buf dels h
    have hb : buf = [] := List.eq_nil_of_length_eq_zero (Nat.le_zero.mp h)
    subst hb
    have hd : drain 0 last [] dels = (last, [], dels) := rfl
    rw [hd]
    refine ⟨le_refl _, by simp, ?_, by simp [lookupK]⟩
    intro k
    have hc : ¬ (last + 1 ≤ k ∧ k ≤ last) := by omega
    rw [if_neg hc]
  | succ fuel ih =>
    intro last buf dels h
    match hl : lookupK (last + 1) buf with
    | none =>
      have hd : drain (fuel + 1) last buf dels = (last, buf, dels) := by
        simp [drain, hl]
      rw [hd]
      refine ⟨le_refl _, by simp, ?_, hl⟩
      intro k
      have hc : ¬ (last + 1 ≤ k ∧ k ≤ last) := by omega
      rw [if_neg hc]
    | some p =>
      have hlen : (eraseK (last + 1) buf).length ≤ fuel := by
        have := length_eraseK_lt hl
        omega
      have heq : drain (fuel + 1) last buf dels =
          drain fuel (last + 1) (eraseK (last + 1) buf)
            (dels ++ [(last + 1, p)]) := by
        simp [drain, hl]
      obtain ⟨h1, h2, h3, h4⟩ :=
        ih (last + 1) (eraseK (last + 1) buf) (dels ++ [(last + 1, p)]) hlen
      rw [heq]
      refine ⟨by omega, ?_, ?_, h4⟩
      · rw [h2]
        have hr : List.range' (last + 1)
            ((drain fuel (last + 1) (eraseK (last + 1) buf)
              (dels ++ [(last + 1, p)])).1 - last) =
            (last + 1) :: List.range' (last + 2)
            ((drain fuel (last + 1) (eraseK (last + 1) buf)
              (dels ++ [(last + 1, p)])).1 - (last + 1)) := by
          rw [show (drain fuel (last + 1) (eraseK (last + 1) buf)
              (dels ++ [(last + 1, p)])).1 - last =
              ((drain fuel (last + 1) (eraseK (last + 1) buf)
              (dels ++ [(last + 1, p)])).1 - (last + 1)) + 1 by omega]
          rw [List.range'_succ]
        rw [hr]
        simp
      · intro k
        rw [h3 k, lookupK_eraseK]
        by_cases hk1 : k = last + 1
        · subst hk1
          have : last + 1 ≤ last + 1 ∧ last + 1 ≤
              (drain fuel (last + 1) (eraseK (last + 1) buf)
                (dels ++ [(last + 1, p)])).1 := ⟨le_refl _, h1⟩
          simp [this]
        · by_cases hk2 : last + 1 + 1 ≤ k ∧ k ≤
              (drain fuel (last + 1) (eraseK (last + 1) buf)
                (dels ++ [(last + 1, p)])).1
          · have : last + 1 ≤ k ∧ k ≤
                (drain fuel (last + 1) (eraseK (last + 1) buf)
                  (dels ++ [(last + 1, p)])).1 := ⟨by omega, hk2.2⟩
            simp [hk2, this]
          · have : ¬ (last + 1 ≤ k ∧ k ≤
                (drain fuel (last + 1) (eraseK (last + 1) buf)
                  (dels ++ [(last + 1, p)])).1) := by omega
            simp [hk2, this, hk1]

theorem sInv_init : SInv sInit := by
  refine ⟨by simp [sInit], ?_, by norm_num [sInit]⟩
  intro k h
  simp [sInit, lookupK] at h

theorem serverStep_inv (c : SCfg) (s : ℕ) (p : Bytes) (h : SInv c) :
    SInv (serverStep c s p) := by
  obtain ⟨hA, hB, hD⟩ := h
  unfold serverStep
  by_cases h1 : (s : ℤ) = c.last + 1
  · rw [if_pos h1]
    obtain ⟨hd1, hd2, hd3, hd4⟩ :=
      drain_spec c.buf.length s c.buf (c.delivered ++ [(s, p)]) (le_refl _)
    set r := drain c.buf.length s c.buf (c.delivered ++ [(s, p)]) with hr
    have hsnat : (c.last + 1).toNat = s := by omega
    refine ⟨?_, ?_, ?_⟩
    · show r.2.2.map Prod.fst = List.range ((r.1 : ℤ) + 1).toNat
      rw [hd2, List.map_append, hA, hsnat]
      have htn : ((r.1 : ℤ) + 1).toNat = r.1 + 1 := by omega
      rw [htn]
      have hcons : (s, p) :: ([] : List (ℕ × Bytes)) = [(s, p)] := rfl
      have hstep : List.range' s (r.1 - s + 1) =
          s :: List.range' (s + 1) (r.1 - s) := List.range'_succ _ _ _
      calc List.range s ++ List.map Prod.fst [(s, p)] ++
              List.range' (s + 1) (r.1 - s)
          = List.range' 0 s ++ List.range' s (r.1 - s + 1) := by
            rw [List.range_eq_range', hstep]; simp
        _ = List.range' 0 (r.1 - s + 1 + s) := by
            have := List.range'_append 0 s (r.1 - s + 1) 1
            simpa using this
        _ = List.range (r.1 + 1) := by
            rw [List.range_eq_range']
            congr 1
            omega
    · intro k hk
      show (r.1 : ℤ) + 1 < (k : ℤ)
      rw [hd3 k] at hk
      by_cases hin : s + 1 ≤ k ∧ k ≤ r.1
      · rw [if_pos hin] at hk
        simp at hk
      · rw [if_neg hin] at hk
        have hgt : c.last + 1 < (k : ℤ) := hB k hk
        have hk1 : k ≠ r.1 + 1 := by
          intro he
          rw [he] at hk
          rw [hd3 (r.1 + 1)] at hd4
          by_cases hin' : s + 1 ≤ r.1 + 1 ∧ r.1 + 1 ≤ r.1
          · omega
          · rw [if_neg hin'] at hd4
            rw [hd4] at hk
            simp at hk
        omega
    · show -1 ≤ ((r.1 : ℤ))
      omega
  · rw [if_neg h1]
    by_cases h2 : (s : ℤ) > c.last + 1
    · rw [if_pos h2]
      refine ⟨hA, ?_, hD⟩
      intro k hk
      rw [lookupK_upsert] at hk
      by_cases hks : k = s
      · subst hks; exact h2
      · rw [if_neg hks] at hk
        exact hB k hk
    · rw [if_neg h2]
      exact ⟨hA, hB, hD⟩

theorem serverStep_last_mono (c : SCfg) (s : ℕ) (p : Bytes) :
    c.last ≤ (serverStep c s p).last := by
  unfold serverStep
  by_cases h1 : (s : ℤ) = c.last + 1
  · rw [if_pos h1]
    obtain ⟨hd1, _, _, _⟩ :=
      drain_spec c.buf.length s c.buf (c.delivered ++ [(s, p)]) (le_refl _)
    show c.last ≤ ((drain c.buf.length s c.buf (c.delivered ++ [(s, p)])).1 : ℤ)
    omega
  · by_cases h2 : (s : ℤ) > c.last + 1 <;> simp [h1, h2]

/-- Once a seqno is at or below the frontier or sitting in the reorder
buffer, it stays so: the buffer only drops keys that the frontier has
passed. -/
theorem serverStep_persist (c : SCfg) (s : ℕ) (p : Bytes) (q : ℕ)
    (h : (q : ℤ) ≤ c.last ∨ (lookupK q c.buf).isSome) :
    (q : ℤ) ≤ (serverStep c s p).last ∨
      (lookupK q (serverStep c s p).buf).isSome := by
  rcases h with h | h
  · exact Or.inl (le_trans h (serverStep_last_mono c s p))
  · unfold serverStep
    by_cases h1 : (s : ℤ) = c.last + 1
    · rw [if_pos h1]
      obtain ⟨hd1, _, hd3, _⟩ :=
        drain_spec c.buf.length s c.buf (c.delivered ++ [(s, p)]) (le_refl _)
      set r := drain c.buf.length s c.buf (c.delivered ++ [(s, p)]) with hr
      by_cases hin : s + 1 ≤ q ∧ q ≤ r.1
      · left
        show (q : ℤ) ≤ (r.1 : ℤ)
        exact_mod_cast hin.2
      · right
        show (lookupK q r.2.1).isSome
        rw [hd3 q, if_neg hin]
        exact h
    · rw [if_neg h1]
      by_cases h2 : (s : ℤ) > c.last + 1
      · rw [if_pos h2]
        right
        show (lookupK q (upsert s p c.buf)).isSome
        rw [lookupK_upsert]
        by_cases hqs : q = s <;> simp [hqs, h]
      · rw [if_neg h2]
        exact Or.inr h

theorem serverRun_inv (c : SCfg) (pkts : List (ℕ × Bytes)) (h : SInv c) :
    SInv (serverRun c pkts) := by
  induction pkts generalizing c with
  | nil => exact h
  | cons hd t ih =>
    exact ih (serverStep c hd.1 hd.2) (serverStep_inv c hd.1 hd.2 h)

theorem serverRun_persist (c : SCfg) (pkts : List (ℕ × Bytes)) (q : ℕ)
    (h : (q : ℤ) ≤ c.last ∨ (lookupK q c.buf).isSome) :
    (q : ℤ) ≤ (serverRun c pkts).last ∨
      (lookupK q (serverRun c pkts).buf).isSome := by
  induction pkts generalizing c with
  | nil => exact h
  | cons hd t ih =>
    exact ih (serverStep c hd.1 hd.2) (serverStep_persist c hd.1 hd.2 q h)

/-- Every seqno that ever arrived is, at the end of the run, either at or
below the frontier or still buffered. -/
theorem serverRun_arrive (c : SCfg) (pkts : List (ℕ × Bytes)) :
    ∀ sp ∈ pkts, (sp.1 : ℤ) ≤ (serverRun c pkts).last ∨
      (lookupK sp.1 (serverRun c pkts).buf).isSome := by
  induction pkts generalizing c with
  | nil => intro sp h; simp at h
  | cons hd t ih =>
    intro sp hsp
    rcases List.mem_cons.mp hsp with he | ht
    · subst he
      refine serverRun_persist (serverStep c sp.1 sp.2) t sp.1 ?_
      unfold serverStep
      by_cases h1 : (sp.1 : ℤ) = c.last + 1
      · rw [if_pos h1]
        obtain ⟨hd1, _, _, _⟩ := drain_spec c.buf.length sp.1 c.buf
          (c.delivered ++ [(sp.1, sp.2)]) (le_refl _)
        left
        show (sp.1 : ℤ) ≤
          ((drain c.buf.length sp.1 c.buf (c.delivered ++ [(sp.1, sp.2)])).1 : ℤ)
        exact_mod_cast hd1
      · rw [if_neg h1]
        by_cases h2 : (sp.1 : ℤ) > c.last + 1
        · rw [if_pos h2]
          right
          show (lookupK sp.1 (upsert sp.1 sp.2 c.buf)).isSome
          rw [lookupK_upsert, if_pos rfl]
          rfl
        · rw [if_neg h2]
          left
          omega
    · exact ih (serverStep c hd.1 hd.2) sp ht

/-! ### Lemmas about the fixed-window client -/

theorem delRange_step (lo n : ℕ) (l : List (ℕ × Bytes)) :
    delRange lo (n + 1) l = delRange (lo + 1) n (eraseK lo l) := by
  unfold delRange
  rw [List.range'_succ]
  rfl

theorem lookupK_delRange (k lo n : ℕ) (l : List (ℕ × Bytes)) :
    lookupK k (delRange lo n l) =
      if lo ≤ k ∧ k < lo + n then none else lookupK k l := by
  induction n generalizing lo l with
  | zero =>
    have hc : ¬ (lo ≤ k ∧ k < lo + 0) := by omega
    rw [if_neg hc]
    rfl
  | succ n ih =>
    rw [delRange_step, ih, lookupK_eraseK]
    by_cases hk : k = lo
    · subst hk
      have h1 : ¬ (k + 1 ≤ k ∧ k < k + 1 + n) := by omega
      have h2 : k ≤ k ∧ k < k + (n + 1) := by omega
      rw [if_neg h1, if_pos rfl, if_pos h2]
    · by_cases h1 : lo + 1 ≤ k ∧ k < lo + 1 + n
      · have h2 : lo ≤ k ∧ k < lo + (n + 1) := by omega
        rw [if_pos h1, if_pos h2]
      · have h2 : ¬ (lo ≤ k ∧ k < lo + (n + 1)) := by omega
        rw [if_neg h1, if_neg hk, if_neg h2]

theorem length_delRange_le (lo n : ℕ) (l : List (ℕ × Bytes)) :
    (delRange lo n l).length ≤ l.length := by
  induction n generalizing lo l with
  | zero => exact le_refl _
  | succ n ih =>
    rw [delRange_step]
    exact le_trans (ih (lo + 1) (eraseK lo l)) (length_eraseK_le lo l)

/-- In the fixed-window client, the next value to be waited for never
decreases: the progress branch is the only place that changes
`desired_ackno` and it only moves it forward. -/
theorem iter2_desired_mono (src : ℕ → Option Bytes) (n : ℕ)
    (c c' : Cfg2) (h : iter2 src n c = .ok c') : c.desired ≤ c'.desired := by
  unfold iter2 at h
  split at h
  · cases h; exact le_refl _
  · split at h
    · split at h <;> · cases h; simp
    · cases h; simp
    · split at h
      · cases h; exact le_refl _
      · cases h; simp
      · cases h; simp
      · split at h
        · exact absurd h (by simp)
        · rename_i d rest hq m a hu
          split at h
          · cases h
            rename_i hge
            simp only
            omega
          · cases h; simp
    · split at h
      · cases h; simp
      · exact absurd h (by simp)

theorem iter2_aInv (src : ℕ → Option Bytes) (n : ℕ) (c c' : Cfg2)
    (hI : AInv2 c) (h : iter2 src n c = .ok c') : AInv2 c' := by
  obtain ⟨hb, hp⟩ := hI
  unfold iter2 at h
  split at h
  · cases h; exact ⟨hb, hp⟩
  · split at h
    · split at h <;> · cases h; exact ⟨hb, hp⟩
    · cases h; exact ⟨hb, hp⟩
    · split at h
      · cases h; exact ⟨hb, hp⟩
      · cases h; exact ⟨hb, hp⟩
      · cases h; exact ⟨hb, hp⟩
      · split at h
        · exact absurd h (by simp)
        · rename_i d rest hq m a hu
          split at h
          · cases h
            rename_i hge
            constructor
            · intro x hx
              simp only [List.mem_append, List.mem_singleton] at hx
              rcases hx with hx | hx
              · have := hb x hx
                simp only
                omega
              · subst hx
                simp only
                omega
            · simp only
              rw [List.pairwise_append]
              refine ⟨hp, List.pairwise_singleton _ _, ?_⟩
              intro x hx b hbms
              simp only [List.mem_singleton] at hbms
              subst hbms
              have := hb x hx
              omega
          · cases h; exact ⟨hb, hp⟩
    · split at h
      · cases h; exact ⟨hb, hp⟩
      · exact absurd h (by simp)

theorem iter2_wInv (src : ℕ → Option Bytes) (n : ℕ) (c c' : Cfg2)
    (_hn : 1 ≤ n) (hI : WInv2 n c) (h : iter2 src n c = .ok c') :
    WInv2 n c' := by
  obtain ⟨hle, hlt⟩ := hI
  unfold iter2 at h
  split at h
  · cases h; exact ⟨hle, hlt⟩
  · split at h
    · rename_i hst
      split at h
      · cases h
        refine ⟨hle, ?_⟩
        intro hs
        simp only at hs
        rcases hs with hs | hs <;> simp at hs
      · cases h
        refine ⟨hle, ?_⟩
        intro _
        exact hlt (Or.inl hst)
    · rename_i hst
      cases h
      have hlt1 : c.outstanding.length < n := hlt (Or.inr hst)
      have hup : (upsert c.seqno (mkPkt c.seqno (c.body.getD []))
          c.outstanding).length ≤ c.outstanding.length + 1 :=
        length_upsert _ _ _
      constructor
      · simp only
        omega
      · simp only
        split
        · intro hs
          rcases hs with hs | hs <;> simp at hs
        · rename_i hgt
          intro _
          omega
    · split at h
      · cases h; exact ⟨hle, hlt⟩
      · cases h
        refine ⟨hle, ?_⟩
        intro hs
        simp only at hs
        rcases hs with hs | hs <;> simp at hs
      · cases h
        refine ⟨hle, ?_⟩
        intro hs
        simp only at hs
        rcases hs with hs | hs <;> simp at hs
      · split at h
        · exact absurd h (by simp)
        · rename_i d rest hq m a hu
          split at h
          · cases h
            have hdel : (delRange c.desired (a + 1 - c.desired)
                c.outstanding).length ≤ c.outstanding.length :=
              length_delRange_le _ _ _
            constructor
            · simp only
              omega
            · simp only
              split
              · rename_i hcond
                intro _
                exact hcond.1
              · intro hs
                rcases hs with hs | hs <;> simp at hs
          · cases h
            refine ⟨hle, ?_⟩
            intro hs
            simp only at hs
            rcases hs with hs | hs <;> simp at hs
    · split at h
      · cases h
        refine ⟨hle, ?_⟩
        intro hs
        simp only at hs
        rcases hs with hs | hs <;> simp at hs
      · exact absurd h (by simp)

theorem iter2_gInv (src : ℕ → Option Bytes) (n : ℕ) (c c' : Cfg2)
    (hG : goodHd2 c) (hI : GInv2 c) (h : iter2 src n c = .ok c') :
    GInv2 c' := by
  obtain ⟨hds, hiff⟩ := hI
  unfold iter2 at h
  split at h
  · cases h; exact ⟨hds, hiff⟩
  · split at h
    · split at h <;> · cases h; exact ⟨hds, hiff⟩
    · rename_i hst
      cases h
      constructor
      · simp only
        omega
      · intro k
        simp only
        rw [lookupK_upsert]
        by_cases hk : k = c.seqno
        · subst hk
          simp only [if_pos rfl]
          constructor
          · intro _
            exact ⟨hds, by omega⟩
          · intro _
            rfl
        · rw [if_neg hk, hiff k]
          omega
    · rename_i hst
      split at h
      · cases h; exact ⟨hds, hiff⟩
      · cases h; exact ⟨hds, hiff⟩
      · cases h; exact ⟨hds, hiff⟩
      · split at h
        · exact absurd h (by simp)
        · rename_i d rest hq xo m a hu
          have ha : a < c.seqno := hG d rest m a hst hq hu
          split at h
          · cases h
            rename_i hge
            constructor
            · simp only
              omega
            · intro k
              simp only
              rw [lookupK_delRange]
              by_cases hin : c.desired ≤ k ∧ k < c.desired + (a + 1 - c.desired)
              · rw [if_pos hin]
                simp only [Option.isSome_none, Bool.false_eq_true,
                  false_iff]
                omega
              · rw [if_neg hin, hiff k]
                omega
          · cases h; exact ⟨hds, hiff⟩
    · split at h
      · cases h; exact ⟨hds, hiff⟩
      · exact absurd h (by simp)

theorem reach2_aInv (src : ℕ → Option Bytes) (n : ℕ) (c : Cfg2)
    (h : Reach2 src n c) : AInv2 c := by
  induction h with
  | base evs => exact ⟨by simp [init2], by simp [init2]⟩
  | step hr hit ih => exact iter2_aInv _ _ _ _ ih hit

theorem reach2_wInv (src : ℕ → Option Bytes) (n : ℕ) (c : Cfg2)
    (hn : 1 ≤ n) (h : Reach2 src n c) : WInv2 n c := by
  induction h with
  | base evs =>
    refine ⟨by simp [init2], fun _ => ?_⟩
    simp only [init2, List.length_nil]
    omega
  | step hr hit ih => exact iter2_wInv _ _ _ _ hn ih hit

theorem reachG2_gInv (src : ℕ → Option Bytes) (n : ℕ) (c : Cfg2)
    (h : ReachG2 src n c) : GInv2 c := by
  induction h with
  | base evs =>
    refine ⟨le_refl _, ?_⟩
    intro k
    simp [init2, lookupK]
  | step hr hgood hit ih => exact iter2_gInv _ _ _ _ hgood ih hit

/-! ### Lemmas about the adaptive-window client -/

theorem reachG3_reach3 (src : ℕ → Option Bytes) (c : Cfg3)
    (h : ReachG3 src c) : Reach3 src c := by
  induction h with
  | base evs => exact .base evs
  | step hr hgood hit ih => exact .step ih hit

theorem lookupK_filter_gt (a k : ℕ) (l : List (ℕ × Bytes)) :
    lookupK k (l.filter (fun kv => (a : ℤ) < (kv.1 : ℤ))) =
      if (a : ℤ) < (k : ℤ) then lookupK k l else none := by
  induction l with
  | nil => by_cases hk : (a : ℤ) < (k : ℤ) <;> simp [lookupK, hk]
  | cons hd t ih =>
    cases hd with
    | mk k₀ v₀ =>
      by_cases h0 : (a : ℤ) < (k₀ : ℤ)
      · rw [List.filter_cons_of_pos (by simpa using h0)]
        by_cases h0k : k₀ = k
        · subst h0k
          simp [lookupK, h0]
        · simp only [lookupK, if_neg h0k, ih]
      · rw [List.filter_cons_of_neg (by simpa using h0)]
        by_cases h0k : k₀ = k
        · subst h0k
          rw [ih]
          simp only [if_neg h0]
        · rw [ih]
          by_cases hk : (a : ℤ) < (k : ℤ)
          · rw [if_pos hk, if_pos hk]
            simp only [lookupK, if_neg h0k]
          · rw [if_neg hk, if_neg hk]

theorem zlookup_eq_lookupK (z : ℤ) (l : List (ℕ × Bytes)) (hz : 0 ≤ z) :
    zlookup z l = lookupK z.toNat l := by
  induction l with
  | nil => rfl
  | cons hd t ih =>
    cases hd with
    | mk k₀ v₀ =>
      simp only [zlookup, lookupK]
      have : ((k₀ : ℤ) = z) ↔ (k₀ = z.toNat) := by omega
      by_cases hk : (k₀ : ℤ) = z
      · rw [if_pos hk, if_pos (this.mp hk)]
      · rw [if_neg hk, if_neg (fun hh => hk (this.mpr hh)), ih]

theorem iter3_inv (src : ℕ → Option Bytes) (c c' : Cfg3)
    (hI : Inv3 c) (h : iter3 src c = .ok c') : Inv3 c' := by
  obtain ⟨h1, h2, h3, h4, h5, h6⟩ := hI
  unfold iter3 at h
  split at h
  · cases h; exact ⟨h1, h2, h3, h4, h5, h6⟩
  · split at h
    · split at h
      · cases h
        refine ⟨h1, h2, h3, ?_, h5, h6⟩
        intro _
        exact Or.inr rfl
      · cases h
        refine ⟨h1, h2, h3, ?_, h5, h6⟩
        intro hs
        rcases hs with hs | hs <;> simp at hs
    · cases h
      refine ⟨h1, h2, h3, ?_, h5, h6⟩
      simp only
      split
      · rename_i hge
        intro _
        exact Or.inl hge
      · intro hs
        rcases hs with hs | hs <;> simp at hs
    · rename_i hst
      split at h
      · cases h; exact ⟨h1, h2, h3, h4, h5, h6⟩
      · cases h
        refine ⟨h1, h2, h3, ?_, h5, h6⟩
        intro _
        exact h4 (Or.inl hst)
      · cases h
        refine ⟨h1, h2, h3, ?_, h5, h6⟩
        intro _
        exact h4 (Or.inl hst)
      · split at h
        · exact absurd h (by simp)
        · rename_i d rest hq xo m a hu
          dsimp only at h
          by_cases hp : (a : ℤ) > c.highest
          · rw [if_pos hp] at h
            cases h
            refine ⟨rfl, ?_, ?_, ?_, ?_, ?_⟩
            · show (-1 : ℤ) ≤ (a : ℤ)
              omega
            · show 1 ≤ c.swnd + 1
              omega
            · simp only
              split
              · intro hs
                rcases hs with hs | hs <;> simp at hs
              · rename_i hcond
                intro _
                rcases Decidable.not_and_iff_or_not.mp hcond with hc | hc
                · exact Or.inl (by omega)
                · exact Or.inr (by simpa using hc)
            · intro x hx
              simp only [List.mem_append, List.mem_singleton] at hx
              rcases hx with hx | hx
              · have := h5 x hx
                simp only
                omega
              · subst hx
                simp only
                omega
            · simp only
              rw [List.pairwise_append]
              refine ⟨h6, List.pairwise_singleton _ _, ?_⟩
              intro x hx b hb
              simp only [List.mem_singleton] at hb
              subst hb
              have := h5 x hx
              omega
          · rw [if_neg hp] at h
            cases h
            refine ⟨h1, h2, h3, ?_, h5, h6⟩
            simp only
            split
            · intro hs
              rcases hs with hs | hs <;> simp at hs
            · rename_i hcond
              intro _
              rcases Decidable.not_and_iff_or_not.mp hcond with hc | hc
              · exact Or.inl (by omega)
              · exact Or.inr (by simpa using hc)
    · rename_i hst
      split at h
      · rename_i pkt hz
        cases h
        refine ⟨h1, h2, le_refl 1, ?_, h5, h6⟩
        intro _
        left
        simp only
        cases hout : c.outstanding with
        | nil => rw [hout] at hz; simp [zlookup] at hz
        | cons hd t => simp [hout]
      · cases h
        refine ⟨h1, h2, h3, ?_, h5, h6⟩
        intro _
        exact h4 (Or.inr hst)

theorem reach3_inv (src : ℕ → Option Bytes) (c : Cfg3)
    (h : Reach3 src c) : Inv3 c := by
  induction h with
  | base evs =>
    refine ⟨rfl, by norm_num [init3], by norm_num [init3], ?_, ?_, ?_⟩
    · intro hs
      rcases hs with hs | hs <;> simp [init3] at hs
    · intro a ha
      simp [init3] at ha
    · simp [init3]
  | step hr hit ih => exact iter3_inv _ _ _ ih hit

theorem iter3_gInv (src : ℕ → Option Bytes) (c c' : Cfg3)
    (hd : c.desired = c.highest + 1) (hG : goodHd3 c) (hI : GInv3 c)
    (h : iter3 src c = .ok c') : GInv3 c' := by
  obtain ⟨hds, hiff⟩ := hI
  unfold iter3 at h
  split at h
  · cases h; exact ⟨hds, hiff⟩
  · split at h
    · split at h <;> · cases h; exact ⟨hds, hiff⟩
    · cases h
      constructor
      · simp only
        push_cast
        omega
      · intro k
        simp only
        rw [lookupK_upsert]
        by_cases hk : k = c.seqno
        · subst hk
          simp only [if_pos rfl]
          constructor
          · intro _
            exact ⟨hds, by omega⟩
          · intro _
            rfl
        · rw [if_neg hk, hiff k]
          constructor
          · intro hx
            exact ⟨hx.1, by omega⟩
          · intro hx
            refine ⟨hx.1, ?_⟩
            rcases Nat.lt_succ_iff_lt_or_eq.mp hx.2 with hh | hh
            · exact hh
            · exact absurd hh hk
    · rename_i hst
      split at h
      · cases h; exact ⟨hds, hiff⟩
      · cases h; exact ⟨hds, hiff⟩
      · cases h; exact ⟨hds, hiff⟩
      · split at h
        · exact absurd h (by simp)
        · rename_i d rest hq xo m a hu
          have ha : a < c.seqno := hG d rest m a hst hq hu
          dsimp only at h
          by_cases hp : (a : ℤ) > c.highest
          · rw [if_pos hp] at h
            cases h
            constructor
            · simp only
              omega
            · intro k
              simp only
              rw [lookupK_filter_gt]
              by_cases hk : (a : ℤ) < (k : ℤ)
              · rw [if_pos hk, hiff k]
                constructor
                · intro hx
                  exact ⟨by omega, hx.2⟩
                · intro hx
                  refine ⟨by omega, hx.2⟩
              · rw [if_neg hk]
                simp only [Option.isSome_none, Bool.false_eq_true,
                  false_iff]
                omega
          · rw [if_neg hp] at h
            cases h
            exact ⟨hds, hiff⟩
    · split at h
      · cases h; exact ⟨hds, hiff⟩
      · cases h; exact ⟨hds, hiff⟩

theorem reachG3_gInv (src : ℕ → Option Bytes) (c : Cfg3)
    (h : ReachG3 src c) : GInv3 c := by
  induction h with
  | base evs =>
    refine ⟨by norm_num [init3], ?_⟩
    intro k
    simp [init3, lookupK]
  | step hr hgood hit ih =>
    have hd := (reach3_inv _ _ (reachG3_reach3 _ _ hr)).1
    exact iter3_gInv _ _ _ hd hgood ih hit

theorem iter3_desired_mono (src : ℕ → Option Bytes) (c c' : Cfg3)
    (hd : c.desired = c.highest + 1) (h : iter3 src c = .ok c') :
    c.desired ≤ c'.desired := by
  unfold iter3 at h
  split at h
  · cases h; exact le_refl _
  · split at h
    · split at h <;> · cases h; simp
    · cases h; simp
    · split at h
      · cases h; exact le_refl _
      · cases h; simp
      · cases h; simp
      · split at h
        · exact absurd h (by simp)
        · rename_i d rest hq xo m a hu
          dsimp only at h
          by_cases hp : (a : ℤ) > c.highest
          · rw [if_pos hp] at h
            cases h
            simp only
            omega
          · rw [if_neg hp] at h
            cases h
            simp
    · split at h
      · cases h; simp
      · cases h; simp

/-! ### Claims about the receiver -/

/-- Claim C1, counterexample: the receiver does not send one cumulative
acknowledgment for every processed datagram.  From the initial state, an
ahead-of-order datagram with seqno 1 is processed (it is buffered) but
the acknowledgment trace stays empty instead of growing by one. -/
theorem receiver_acks_every_datagram_cex :
    (serverStep sInit 1 []).buf.map Prod.fst = [1] ∧
    (serverStep sInit 1 []).acks.length ≠ sInit.acks.length + 1 := by
  constructor <;> decide

/-- Claim C1, amended: the receiver sends exactly one cumulative
acknowledgment, carrying the updated frontier value, if and only if the
datagram is in-order (seqno = frontier + 1); ahead-of-order and
duplicate datagrams produce no acknowledgment at all. -/
theorem receiver_ack_only_in_order (c : SCfg) (s : ℕ) (p : Bytes) :
    ((s : ℤ) = c.last + 1 →
      (serverStep c s p).acks = c.acks ++ [(serverStep c s p).last]) ∧
    ((s : ℤ) ≠ c.last + 1 → (serverStep c s p).acks = c.acks) := by
  constructor
  · intro h
    unfold serverStep
    rw [if_pos h]
  · intro h
    unfold serverStep
    rw [if_neg h]
    by_cases h2 : (s : ℤ) > c.last + 1
    · rw [if_pos h2]
    · rw [if_neg h2]

/-- Witness for the amended C1 at concrete inputs: seqno 0 at the start
is in-order and acknowledged once; seqno 7 at the start is
ahead-of-order and not acknowledged. -/
theorem receiver_ack_only_in_order_witness :
    (serverStep sInit 0 []).acks = sInit.acks ++ [(serverStep sInit 0 []).last] ∧
    (serverStep sInit 7 []).acks = sInit.acks :=
  ⟨(receiver_ack_only_in_order sInit 0 []).1 (by decide),
   (receiver_ack_only_in_order sInit 7 []).2 (by decide)⟩

/-- Claim C2, counterexample: a duplicate datagram (seqno ≤ frontier)
does not reach the data sink.  After delivering seqno 0, a second
datagram with seqno 0 leaves the delivery trace at one entry instead of
invoking deliver again. -/
theorem receiver_dup_delivers_cex :
    (serverStep (serverStep sInit 0 []) 0 []).delivered.length = 1 ∧
    (serverStep (serverStep sInit 0 []) 0 []).delivered.length ≠
      (serverStep sInit 0 []).delivered.length + 1 := by
  constructor <;> decide

/-- Claim C2, amended: a datagram whose seqno is at or below the
frontier is ignored entirely — no sink delivery, no buffer change, no
frontier change and no acknowledgment; the whole receiver state is
untouched. -/
theorem receiver_dup_ignored (c : SCfg) (s : ℕ) (p : Bytes)
    (h : (s : ℤ) ≤ c.last) : serverStep c s p = c := by
  unfold serverStep
  rw [if_neg (by omega), if_neg (by omega)]

/-- Witness for the amended C2: after delivering seqno 0, a duplicate
datagram with seqno 0 leaves the state exactly as it was. -/
theorem receiver_dup_ignored_witness :
    serverStep (serverStep sInit 0 []) 0 [] = serverStep sInit 0 [] :=
  receiver_dup_ignored (serverStep sInit 0 []) 0 [] (by decide)

/-- Claim C3, counterexample: a datagram shorter than 8 bytes is not
dropped silently: the unpack error is uncaught, so the receiver dies and
never processes the subsequent (well-formed) datagram. -/
theorem receiver_short_datagram_cex :
    serverRunRaw sInit [[0], mkPkt 0 []] = .error .structError := by
  rfl

/-- Claim C3, amended: a datagram shorter than the 8-byte header makes
the receiver raise an uncaught struct error — no acknowledgment and no
delivery happen for it, but the failure is fatal: the rest of the
incoming datagrams is never processed. -/
theorem receiver_short_datagram_fatal (c : SCfg) (p : Bytes)
    (h : p.length < 8) :
    serverStepRaw c p = .error .structError ∧
    ∀ rest, serverRunRaw c (p :: rest) = .error .structError := by
  have hlen : (p.take 8).length ≠ 8 := by
    rw [List.length_take]
    omega
  have hstep : serverStepRaw c p = .error .structError := by
    unfold serverStepRaw unpackII
    rw [if_neg hlen]
  refine ⟨hstep, ?_⟩
  intro rest
  unfold serverRunRaw
  rw [hstep]

/-- Witness for the amended C3 at the concrete 1-byte datagram. -/
theorem receiver_short_datagram_fatal_witness :
    serverStepRaw sInit [0] = .error .structError ∧
    serverRunRaw sInit ([0] :: [mkPkt 0 []]) = .error .structError :=
  ⟨(receiver_short_datagram_fatal sInit [0] (by decide)).1,
   (receiver_short_datagram_fatal sInit [0] (by decide)).2 [mkPkt 0 []]⟩

/-- Claim C4, confirmed: if every seqno up to k eventually arrives (in
any order, with arbitrary duplicates), the seqnos passed to the sink's
deliver are exactly 0, 1, 2, …, with no gaps and no reordering, and the
run delivers at least through k. -/
theorem receiver_in_order_delivery (pkts : List (ℕ × Bytes)) (k : ℕ)
    (h : ∀ i ≤ k, ∃ p, (i, p) ∈ pkts) :
    ∃ m, k < m ∧
      (serverRun sInit pkts).delivered.map Prod.fst = List.range m := by
  obtain ⟨hA, hB, hD⟩ := serverRun_inv sInit pkts sInv_init
  set f := serverRun sInit pkts with hf
  refine ⟨(f.last + 1).toNat, ?_, hA⟩
  by_contra hlt
  push_neg at hlt
  have hik : (f.last + 1).toNat ≤ k := by omega
  obtain ⟨p, hp⟩ := h (f.last + 1).toNat hik
  have harr := serverRun_arrive sInit pkts ((f.last + 1).toNat, p) hp
  rcases harr with hle | hsome
  · rw [← hf] at hle
    omega
  · rw [← hf] at hsome
    have := hB _ hsome
    omega

/-- Witness for C4: seqnos 1, 0, 2 arriving in that order are delivered
as 0, 1, 2. -/
theorem receiver_in_order_delivery_witness :
    ∃ m, 2 < m ∧
      (serverRun sInit [(1, []), (0, []), (2, [])]).delivered.map Prod.fst =
        List.range m :=
  receiver_in_order_delivery [(1, []), (0, []), (2, [])] 2 (by
    intro i hi
    interval_cases i
    · exact ⟨[], by decide⟩
    · exact ⟨[], by decide⟩
    · exact ⟨[], by decide⟩)

/-! ### Claims about the senders -/

/-- Claim C5, confirmed: in the ACK-wait state, an acknowledgment with
ackno < desired_ackno is discarded: no sender variable changes (only the
pending event is consumed) and the sender stays in the ACK-wait state —
in the fixed-window client (any configuration) and in the
adaptive-window client (any reachable configuration). -/
theorem sender_stale_ack_discarded :
    (∀ (src : ℕ → Option Bytes) (n : ℕ) (c : Cfg2) (d : Bytes)
      (rest : List Evt) (m a : ℕ), guard2 c → c.state = .s2 →
      c.evs = .dgram d :: rest → unpackII d = some (m, a) →
      a < c.desired →
      iter2 src n c = .ok { c with evs := rest }) ∧
    (∀ (src : ℕ → Option Bytes) (c : Cfg3) (d : Bytes)
      (rest : List Evt) (m a : ℕ), Reach3 src c → guard3 c →
      c.state = .s2 → c.evs = .dgram d :: rest →
      unpackII d = some (m, a) → (a : ℤ) < c.desired →
      iter3 src c = .ok { c with evs := rest }) := by
  constructor
  · intro src n c d rest m a hg hst hevs hu ha
    unfold iter2
    simp only [hst, hevs, hu, if_neg (not_not_intro hg)]
    rw [if_neg (show ¬ a ≥ c.desired by omega)]
  · intro src c d rest m a hr hg hst hevs hu ha
    obtain ⟨h1, h2, h3, h4, h5, h6⟩ := reach3_inv src c hr
    have hstale : ¬ (a : ℤ) > c.highest := by omega
    unfold iter3
    simp only [hst, hevs, hu, if_neg (not_not_intro hg)]
    rw [if_neg hstale]
    rw [if_neg (show ¬ (c.outstanding.length < c.swnd ∧ c.hmd = true) by
      rcases h4 (Or.inl hst) with hh | hh
      · intro hx; omega
      · intro hx; rw [hh] at hx; exact absurd hx.2 (by simp))]

/-- Witness for C5 at concrete configurations of both clients: a stale
ack (ackno 0 while desired is 1) merely consumes the event. -/
theorem sender_stale_ack_discarded_witness :
    iter2 (fun _ => none) 1
        ⟨1, 1, true, some [], [(0, mkPkt 0 [])], .s2,
          [.dgram (ackPkt 0)], [0]⟩ =
      .ok ⟨1, 1, true, some [], [(0, mkPkt 0 [])], .s2, [], [0]⟩ ∧
    iter3 (fun k => if k < 2 then some [] else none)
        ⟨2, 1, 0, 2, false, some [], [(1, mkPkt 1 [])], .s2,
          [.dgram (ackPkt 0)], [0]⟩ =
      .ok ⟨2, 1, 0, 2, false, some [], [(1, mkPkt 1 [])], .s2, [], [0]⟩ := by
  constructor
  · exact sender_stale_ack_discarded.1 (fun _ => none) 1
      ⟨1, 1, true, some [], [(0, mkPkt 0 [])], .s2, [.dgram (ackPkt 0)], [0]⟩
      (ackPkt 0) [] 0xAAAAAAAA 0 (Or.inl rfl) rfl rfl (by decide) (by decide)
  · refine sender_stale_ack_discarded.2 (fun k => if k < 2 then some [] else none)
      ⟨2, 1, 0, 2, false, some [], [(1, mkPkt 1 [])], .s2, [.dgram (ackPkt 0)], [0]⟩
      (ackPkt 0) [] 0xAAAAAAAA 0 ?_ (Or.inr (by simp)) rfl rfl (by decide)
      (by decide)
    exact .step (.step (.step (.step (.step (.step
      (.base [.dgram (ackPkt 0), .dgram (ackPkt 0)]) rfl) rfl) rfl) rfl)
      rfl) rfl

/-- Claim C10, confirmed: a received acknowledgment datagram that is not
exactly 8 bytes long makes struct.unpack raise an error that the
surrounding handler (which catches only timeouts and socket errors) does
not catch: the iteration faults with it, and the enclosing run
terminates with that error — in both clients. -/
theorem sender_malformed_ack_fatal :
    (∀ (src : ℕ → Option Bytes) (n : ℕ) (c : Cfg2) (d : Bytes)
      (rest : List Evt), guard2 c → c.state = .s2 →
      c.evs = .dgram d :: rest → d.length ≠ 8 →
      iter2 src n c = .error .structError) ∧
    (∀ (src : ℕ → Option Bytes) (c : Cfg3) (d : Bytes)
      (rest : List Evt), guard3 c → c.state = .s2 →
      c.evs = .dgram d :: rest → d.length ≠ 8 →
      iter3 src c = .error .structError) ∧
    (∀ (src : ℕ → Option Bytes) (n fuel : ℕ) (c : Cfg2) (e : PyErr),
      iter2 src n c = .error e → run2 src n (fuel + 1) c = .error e) ∧
    (∀ (src : ℕ → Option Bytes) (fuel : ℕ) (c : Cfg3) (e : PyErr),
      iter3 src c = .error e → run3 src (fuel + 1) c = .error e) := by
  refine ⟨?_, ?_, ?_, ?_⟩
  · intro src n c d rest hg hst hevs hlen
    have hu : unpackII d = none := by
      unfold unpackII
      rw [if_neg hlen]
    unfold iter2
    simp only [hst, hevs, hu, if_neg (not_not_intro hg)]
  · intro src c d rest hg hst hevs hlen
    have hu : unpackII d = none := by
      unfold unpackII
      rw [if_neg hlen]
    unfold iter3
    simp only [hst, hevs, hu, if_neg (not_not_intro hg)]
  · intro src n fuel c e h
    unfold run2
    rw [h]
  · intro src fuel c e h
    unfold run3
    rw [h]

/-- Witness for C10: a 3-byte acknowledgment datagram kills each client
at a concrete ACK-wait configuration. -/
theorem sender_malformed_ack_fatal_witness :
    iter2 (fun _ => none) 1
        ⟨0, 0, true, none, [], .s2, [.dgram [0, 1, 2]], []⟩ =
      .error .structError ∧
    run2 (fun _ => none) 1 1
        ⟨0, 0, true, none, [], .s2, [.dgram [0, 1, 2]], []⟩ =
      .error .structError ∧
    iter3 (fun _ => none)
        ⟨0, 0, -1, 1, true, none, [], .s2, [.dgram [0, 1, 2]], []⟩ =
      .error .structError ∧
    run3 (fun _ => none) 1
        ⟨0, 0, -1, 1, true, none, [], .s2, [.dgram [0, 1, 2]], []⟩ =
      .error .structError := by
  have h2 := sender_malformed_ack_fatal.1 (fun _ => none) 1
    ⟨0, 0, true, none, [], .s2, [.dgram [0, 1, 2]], []⟩ [0, 1, 2] []
    (Or.inl rfl) rfl rfl (by decide)
  have h3 := sender_malformed_ack_fatal.2.1 (fun _ => none)
    ⟨0, 0, -1, 1, true, none, [], .s2, [.dgram [0, 1, 2]], []⟩ [0, 1, 2] []
    (Or.inl rfl) rfl rfl (by decide)
  exact ⟨h2, sender_malformed_ack_fatal.2.2.1 _ 1 0 _ _ h2, h3,
    sender_malformed_ack_fatal.2.2.2 _ 0 _ _ h3⟩

/-- Claim C9, confirmed: in both clients, desired_ackno never decreases
across a loop iteration, and the sequence of ackno values acted upon by
the progress branch is strictly increasing over any run. -/
theorem sender_ack_monotonicity :
    (∀ (src : ℕ → Option Bytes) (n : ℕ) (c c' : Cfg2),
      iter2 src n c = .ok c' → c.desired ≤ c'.desired) ∧
    (∀ (src : ℕ → Option Bytes) (n : ℕ) (c : Cfg2), Reach2 src n c →
      List.Pairwise (· < ·) c.acted) ∧
    (∀ (src : ℕ → Option Bytes) (c c' : Cfg3), Reach3 src c →
      iter3 src c = .ok c' → c.desired ≤ c'.desired) ∧
    (∀ (src : ℕ → Option Bytes) (c : Cfg3), Reach3 src c →
      List.Pairwise (· < ·) c.acted) :=
  ⟨fun src n c c' h => iter2_desired_mono src n c c' h,
   fun src n c h => (reach2_aInv src n c h).2,
   fun src c c' hr h => iter3_desired_mono src c c' (reach3_inv src c hr).1 h,
   fun src c hr => (reach3_inv src c hr).2.2.2.2.2⟩

/-- Witness for C9 at concrete inputs: one data-exhaustion step of each
client preserves desired_ackno, and the initial acted traces are
strictly increasing. -/
theorem sender_ack_monotonicity_witness :
    ((init2 []).desired ≤
      (⟨0, 0, false, none, [], .s2, [], []⟩ : Cfg2).desired) ∧
    List.Pairwise (· < ·) (init2 []).acted ∧
    ((init3 []).desired ≤
      (⟨0, 0, -1, 1, false, none, [], .s2, [], []⟩ : Cfg3).desired) ∧
    List.Pairwise (· < ·) (init3 []).acted :=
  ⟨sender_ack_monotonicity.1 (fun _ => none) 1 (init2 [])
      ⟨0, 0, false, none, [], .s2, [], []⟩ rfl,
   sender_ack_monotonicity.2.1 (fun _ => none) 1 (init2 []) (.base []),
   sender_ack_monotonicity.2.2.1 (fun _ => none) (init3 [])
      ⟨0, 0, -1, 1, false, none, [], .s2, [], []⟩ (.base []) rfl,
   sender_ack_monotonicity.2.2.2 (fun _ => none) (init3 []) (.base [])⟩

/-- Claim C7, counterexample: with configured window size N = 0 the
Outstanding Set still reaches size 1 (the send state only checks the
window after inserting), so its size exceeds N. -/
theorem sender_fixed_window_cex :
    (run2 (fun k => if k < 1 then some [] else none) 0 2
        (init2 [])).map (fun c => c.outstanding.length) = .ok 1 ∧
    ¬ ((1 : ℕ) ≤ 0) := by
  exact ⟨rfl, by decide⟩

/-- Claim C7, amended: in the fixed-window client with window size
N ≥ 1, the Outstanding Set size never exceeds N at any reachable point
of a run. -/
theorem sender_fixed_window_bound (src : ℕ → Option Bytes) (n : ℕ)
    (c : Cfg2) (hn : 1 ≤ n) (h : Reach2 src n c) :
    c.outstanding.length ≤ n :=
  (reach2_wInv src n c hn h).1

/-- Witness for the amended C7: after pulling and sending one packet
with N = 1, the outstanding size is within the bound. -/
theorem sender_fixed_window_bound_witness :
    (⟨1, 0, true, some [], [(0, mkPkt 0 [])], .s2, [], []⟩ :
      Cfg2).outstanding.length ≤ 1 :=
  sender_fixed_window_bound (fun k => if k < 1 then some [] else none) 1
    ⟨1, 0, true, some [], [(0, mkPkt 0 [])], .s2, [], []⟩
    (by norm_num) (.step (.step (.base []) rfl) rfl)

/-- Claim C8, counterexample: an acknowledgment for a never-sent seqno
(ackno 5 after sending only seqnos 0 and 1) moves desired_ackno to 6;
the next sent packet then creates the outstanding key 2 < 6, so the
Outstanding Set is not the range [desired_ackno, seqno) = [6, 3) = ∅. -/
theorem sender_outstanding_range_cex :
    (run2 (fun k => if k < 3 then some [] else none) 2 7
        (init2 [.dgram (ackPkt 5)])).map
      (fun c => ((lookupK 2 c.outstanding).isSome, c.desired, c.seqno)) =
      .ok (true, 6, 3) ∧
    ¬ (∀ c : Cfg2, run2 (fun k => if k < 3 then some [] else none) 2 7
        (init2 [.dgram (ackPkt 5)]) = .ok c →
        ∀ k, (lookupK k c.outstanding).isSome ↔
          (c.desired ≤ k ∧ k < c.seqno)) := by
  constructor
  · rfl
  · intro hall
    have h := hall ⟨3, 6, true, some [], [(2, mkPkt 2 [])], .s0, [], [5]⟩
      rfl 2
    have h2 := h.mp (by decide)
    exact absurd (h2.1 : (6 : ℕ) ≤ 2) (by decide)

/-- Claim C8, amended: provided every acknowledgment acted upon covers
only already-sent packets (ackno < seqno, which is true of every
acknowledgment the receiver can generate), the Outstanding Set keys are
exactly the half-open range [desired_ackno, seqno); in particular the
burst-retransmission loop, which indexes every i in that range, never
misses a key. -/
theorem sender_outstanding_range (src : ℕ → Option Bytes) (n : ℕ)
    (c : Cfg2) (h : ReachG2 src n c) :
    (∀ k, (lookupK k c.outstanding).isSome ↔
      (c.desired ≤ k ∧ k < c.seqno)) ∧
    (List.range' c.desired (c.seqno - c.desired)).all
      (fun i => (lookupK i c.outstanding).isSome) = true := by
  obtain ⟨hds, hiff⟩ := reachG2_gInv src n c h
  refine ⟨hiff, ?_⟩
  rw [List.all_eq_true]
  intro i hi
  rw [List.mem_range'] at hi
  obtain ⟨j, hj, hij⟩ := hi
  have := (hiff i).mpr ⟨by omega, by omega⟩
  simpa using this

/-- Witness for the amended C8: after sending seqno 0 with N = 1 and no
acknowledgment processed yet, the outstanding keys are exactly [0, 1). -/
theorem sender_outstanding_range_witness :
    (∀ k, (lookupK k (⟨1, 0, true, some [], [(0, mkPkt 0 [])], .s2, [],
        []⟩ : Cfg2).outstanding).isSome ↔
      ((⟨1, 0, true, some [], [(0, mkPkt 0 [])], .s2, [], []⟩ :
        Cfg2).desired ≤ k ∧
       k < (⟨1, 0, true, some [], [(0, mkPkt 0 [])], .s2, [], []⟩ :
        Cfg2).seqno)) ∧
    (List.range'
        (⟨1, 0, true, some [], [(0, mkPkt 0 [])], .s2, [], []⟩ :
          Cfg2).desired
        ((⟨1, 0, true, some [], [(0, mkPkt 0 [])], .s2, [], []⟩ :
          Cfg2).seqno -
         (⟨1, 0, true, some [], [(0, mkPkt 0 [])], .s2, [], []⟩ :
          Cfg2).desired)).all
      (fun i => (lookupK i
        (⟨1, 0, true, some [], [(0, mkPkt 0 [])], .s2, [], []⟩ :
          Cfg2).outstanding).isSome) = true :=
  sender_outstanding_range (fun k => if k < 1 then some [] else none) 1
    ⟨1, 0, true, some [], [(0, mkPkt 0 [])], .s2, [], []⟩
    (.step (.step (.base [])
        (by intro d rest m a hst hevs hu; simp [init2] at hst) rfl)
      (by intro d rest m a hst hevs hu; simp at hst) rfl)

/-- Claim C6, counterexample: a timeout does not always reset swnd to 1.
After a forged acknowledgment for the unsent seqno 10, desired_ackno is
11, which is not an outstanding key, so the retransmit step after the
next timeout resets nothing: swnd stays 2. -/
theorem sender_adaptive_window_cex :
    (run3 (fun k => if k < 3 then some [] else none) 8
        (init3 [.dgram (ackPkt 10), .timeout])).map
      (fun c => (c.state, c.swnd)) = .ok (.s3, 2) ∧
    (run3 (fun k => if k < 3 then some [] else none) 9
        (init3 [.dgram (ackPkt 10), .timeout])).map
      (fun c => c.swnd) = .ok 2 ∧
    ¬ ((2 : ℕ) = 1) := by
  exact ⟨rfl, rfl, by decide⟩

/-- Claim C6, amended: swnd starts at 1; every accepted progress-making
acknowledgment (ackno beyond the highest cumulative ack seen) adds
exactly 1; a timeout moves to the retransmit state with swnd unchanged,
and the retransmit step resets swnd to exactly 1 whenever the oldest
outstanding packet is present to be resent — which is the case after
every timeout, provided every acknowledgment acted upon covers only
already-sent packets; every other step leaves swnd unchanged.  Hence
after such a reset, j consecutive progress acknowledgments with no
intervening timeout leave swnd = 1 + j. -/
theorem sender_adaptive_window :
    (∀ evs, (init3 evs).swnd = 1) ∧
    (∀ (src : ℕ → Option Bytes) (c c' : Cfg3) (d : Bytes)
      (rest : List Evt) (m a : ℕ), guard3 c → c.state = .s2 →
      c.evs = .dgram d :: rest → unpackII d = some (m, a) →
      (a : ℤ) > c.highest → iter3 src c = .ok c' →
      c'.swnd = c.swnd + 1) ∧
    (∀ (src : ℕ → Option Bytes) (c c' : Cfg3) (rest : List Evt),
      guard3 c → c.state = .s2 → c.evs = .timeout :: rest →
      iter3 src c = .ok c' → c'.state = .s3 ∧ c'.swnd = c.swnd) ∧
    (∀ (src : ℕ → Option Bytes) (c c' : Cfg3), ReachG3 src c →
      guard3 c → c.state = .s3 → iter3 src c = .ok c' → c'.swnd = 1) ∧
    (∀ (src : ℕ → Option Bytes) (c c' : Cfg3), c.state ≠ .s3 →
      (∀ d rest m a, c.evs = .dgram d :: rest →
        unpackII d = some (m, a) → ¬ (a : ℤ) > c.highest) →
      iter3 src c = .ok c' → c'.swnd = c.swnd) := by
  refine ⟨fun _ => rfl, ?_, ?_, ?_, ?_⟩
  · intro src c c' d rest m a hg hst hevs hu hp h
    unfold iter3 at h
    simp only [hst, hevs, hu, if_neg (not_not_intro hg)] at h
    rw [if_pos hp] at h
    cases h
    rfl
  · intro src c c' rest hg hst hevs h
    unfold iter3 at h
    simp only [hst, hevs, if_neg (not_not_intro hg)] at h
    cases h
    exact ⟨rfl, rfl⟩
  · intro src c c' hr hg hst h
    obtain ⟨h1, h2, h3, h4, h5, h6⟩ := reach3_inv src c (reachG3_reach3 src c hr)
    obtain ⟨hds, hiff⟩ := reachG3_gInv src c hr
    have hout : c.outstanding ≠ [] := by
      rcases h4 (Or.inr hst) with hh | hh
      · intro he
        rw [he] at hh
        simp at hh
        omega
      · rcases hg with hgg | hgg
        · rw [hh] at hgg
          exact absurd hgg (by simp)
        · exact hgg
    have hlt : c.desired < (c.seqno : ℤ) := by
      cases hhd : c.outstanding with
      | nil => exact absurd hhd hout
      | cons kv t =>
        have : (lookupK kv.1 c.outstanding).isSome := by
          rw [hhd]
          cases kv with
          | mk k0 v0 => simp [lookupK]
        have := (hiff kv.1).mp this
        omega
    have hsome : (zlookup c.desired c.outstanding).isSome := by
      rw [zlookup_eq_lookupK c.desired c.outstanding (by omega)]
      have := (hiff c.desired.toNat).mpr ⟨by omega, by omega⟩
      exact this
    obtain ⟨v, hv⟩ := Option.isSome_iff_exists.mp hsome
    unfold iter3 at h
    simp only [hst, hv, if_neg (not_not_intro hg)] at h
    cases h
    rfl
  · intro src c c' hne hnp h
    unfold iter3 at h
    split at h
    · cases h; rfl
    · split at h
      · split at h <;> · cases h; rfl
      · cases h; rfl
      · split at h
        · cases h; rfl
        · cases h; rfl
        · cases h; rfl
        · split at h
          · exact absurd h (by simp)
          · rename_i d rest hq xo m a hu
            have := hnp d rest m a hq hu
            dsimp only at h
            rw [if_neg this] at h
            cases h
            rfl
      · rename_i hst
        exact absurd hst hne

/-- Witness for the amended C6 at concrete inputs: the initial window is
1; a progress acknowledgment at a reachable ACK-wait configuration
yields swnd 2; a timeout step keeps swnd and enters the retransmit
state; the retransmit step at a reachable retransmit configuration
resets swnd to 1. -/
theorem sender_adaptive_window_witness :
    (init3 []).swnd = 1 ∧
    (⟨1, 1, 0, 2, true, some [], [], .s0, [], [0]⟩ : Cfg3).swnd = 1 + 1 ∧
    ((⟨1, 0, -1, 1, true, some [], [(0, mkPkt 0 [])], .s3, [],
        []⟩ : Cfg3).state = .s3 ∧
      (⟨1, 0, -1, 1, true, some [], [(0, mkPkt 0 [])], .s3, [],
        []⟩ : Cfg3).swnd = 1) ∧
    (⟨1, 0, -1, 1, true, some [], [(0, mkPkt 0 [])], .s2, [],
        []⟩ : Cfg3).swnd = 1 := by
  refine ⟨sender_adaptive_window.1 [], ?_, ?_, ?_⟩
  · exact sender_adaptive_window.2.1
      (fun k => if k < 1 then some [] else none)
      ⟨1, 0, -1, 1, true, some [], [(0, mkPkt 0 [])], .s2,
        [.dgram (ackPkt 0)], []⟩
      ⟨1, 1, 0, 2, true, some [], [], .s0, [], [0]⟩
      (ackPkt 0) [] 0xAAAAAAAA 0 (Or.inl rfl) rfl rfl (by decide)
      (by decide) (by rfl)
  · exact sender_adaptive_window.2.2.1
      (fun k => if k < 1 then some [] else none)
      ⟨1, 0, -1, 1, true, some [], [(0, mkPkt 0 [])], .s2, [.timeout], []⟩
      ⟨1, 0, -1, 1, true, some [], [(0, mkPkt 0 [])], .s3, [], []⟩
      [] (Or.inl rfl) rfl rfl rfl
  · exact sender_adaptive_window.2.2.2.1
      (fun k => if k < 1 then some [] else none)
      ⟨1, 0, -1, 1, true, some [], [(0, mkPkt 0 [])], .s3, [], []⟩
      ⟨1, 0, -1, 1, true, some [], [(0, mkPkt 0 [])], .s2, [], []⟩
      (.step (.step (.step
          (.base [.timeout])
          (by intro d rest m a hst hevs hu; simp [init3] at hst) rfl)
        (by intro d rest m a hst hevs hu; simp [init3] at hst) rfl)
        (by intro d rest m a hst hevs hu; simp [init3] at hevs) rfl)
      (Or.inl rfl) rfl rfl

end Proto
